import Mathlib

/-!
Shallow embedding of the document-store / metadata-index / hybrid-filter core
of the RAG repository, taken from `src/modules/processing/metadata_index.py`
and `src/modules/ingestion/docstore.py`, together with theorems settling the
frozen claims about it.

Modelling conventions:
* Python strings are lists of Unicode code points (`PyStr`); `str.lower` is
  modelled on the ASCII range, `str.strip` on ASCII whitespace.
* Metadata values (string | number | boolean | sequence of primitives, the
  open-schema value domain of the data model) are the tagged variants
  `Prim`/`Value`.
* Python dicts are association lists with dict semantics: assignment replaces
  an existing key in place and appends a missing key at the end; Python sets
  of node ids are `Finset String`.
* `datetime.now().isoformat()` is an explicit `now` argument threaded into
  every mutating operation; in the document store, successive `now()` readings
  are modelled by a strictly increasing integer clock.
* File I/O is explicit: a fallible write is an `Except String Unit` input and
  the on-disk state of a snapshot file is a `FileState`.
-/

/-- Python strings as lists of code points. -/
abbrev PyStr := List Nat

/-- ASCII lowercasing of one code point (the effect of `str.lower`). -/
def lowerChar (c : Nat) : Nat := if 65 ≤ c ∧ c ≤ 90 then c + 32 else c

/-- ASCII whitespace, the characters removed by `str.strip`. -/
def isSpaceChar (c : Nat) : Bool :=
  c == 32 || c == 9 || c == 10 || c == 13 || c == 11 || c == 12

/-- `s.lower()`. -/
def pyLower (s : PyStr) : PyStr := s.map lowerChar

/-- `s.strip()`: drop leading and trailing whitespace. -/
def pyStrip (s : PyStr) : PyStr := (s.dropWhile isSpaceChar).rdropWhile isSpaceChar

/-- Code points of a Lean string literal, for writing concrete inputs. -/
def pystr (s : String) : PyStr := s.data.map Char.toNat

/-- A primitive Python metadata value: `str`, `int` or `bool`. -/
inductive Prim where
  | str  : PyStr → Prim
  | int  : Int → Prim
  | bool : Bool → Prim
deriving DecidableEq

/-- A Python metadata value: a primitive, or a list/tuple of primitives
(the open-schema value domain: string | number | boolean | ordered sequence). -/
inductive Value where
  | prim : Prim → Value
  | list : List Prim → Value
deriving DecidableEq

/-- Decimal digit code points of a natural number, least significant first.
The first argument is recursion fuel, always passed as `n + 1`. -/
def natDigitsRev : Nat → Nat → List Nat
  | 0, _ => []
  | fuel + 1, n => if n < 10 then [48 + n] else (48 + n % 10) :: natDigitsRev fuel (n / 10)

/-- Python `str` of a natural number. -/
def pyStrOfNat (n : Nat) : PyStr := (natDigitsRev (n + 1) n).reverse

/-- Python `str` of an `int` (decimal, with a leading `-` when negative). -/
def pyStrOfInt : Int → PyStr
  | .ofNat n => pyStrOfNat n
  | .negSucc n => 45 :: pyStrOfNat (n + 1)

/-- Python `str(v)` of a primitive value. -/
def pyStrOfPrim : Prim → PyStr
  | .str s => s
  | .int n => pyStrOfInt n
  | .bool b => if b then pystr "True" else pystr "False"

/-- Python `repr(v)` of a primitive, as used inside the `str` of a tuple
(strings are quoted). -/
def pyReprOfPrim : Prim → PyStr
  | .str s => 39 :: s ++ [39]
  | p => pyStrOfPrim p

/-- Join with `", "`. -/
def joinComma : List PyStr → PyStr
  | [] => []
  | [s] => s
  | s :: rest => s ++ [44, 32] ++ joinComma rest

/-- Python `str(value)` as applied by `MetadataIndex.persist` to a bucket key.
A bucket key is a normalized value, so a sequence key is a Python tuple, whose
`str` uses parentheses and a trailing comma for a 1-tuple. -/
def pyStrOfKey : Value → PyStr
  | .prim p => pyStrOfPrim p
  | .list [] => pystr "()"
  | .list [p] => 40 :: pyReprOfPrim p ++ [44, 41]
  | .list ps => 40 :: joinComma (ps.map pyReprOfPrim) ++ [41]

/-- `sorted` on Python strings: lexicographic by code point. -/
def sortedPyStrs (l : List PyStr) : List PyStr := l.insertionSort (· ≤ ·)

/-- `MetadataIndex._normalize_value`: strings are lowercased and stripped,
lists/tuples become the sorted tuple of the `str` forms of their elements,
anything else is returned unchanged. -/
def normalizeValue : Value → Value
  | .prim (.str s) => .prim (.str (pyStrip (pyLower s)))
  | .list vs => .list ((sortedPyStrs (vs.map pyStrOfPrim)).map Prim.str)
  | v => v

/-- `d.get(k)` on a Python dict modelled as an association list. -/
def alookup {α β : Type} [DecidableEq α] (k : α) : List (α × β) → Option β
  | [] => none
  | (k', v) :: rest => if k' = k then some v else alookup k rest

/-- `d[k] = v`: replace an existing key in place, append a missing key. -/
def aset {α β : Type} [DecidableEq α] (k : α) (v : β) : List (α × β) → List (α × β)
  | [] => [(k, v)]
  | (k', v') :: rest => if k' = k then (k, v) :: rest else (k', v') :: aset k v rest

/-- `del d[k]` on a dict. -/
def adel {α β : Type} [DecidableEq α] (k : α) (l : List (α × β)) : List (α × β) :=
  l.filter fun kv => decide (kv.1 ≠ k)

/-- Node / document identifiers. -/
abbrev NodeId := String

/-- A Python metadata dict: field name → value. -/
abbrev Metadata := List (String × Value)

/-- One per-field bucket dict of the inverted index: normalized value → set of
node ids. -/
abbrev Bucket := List (Value × Finset NodeId)

/-- `MetadataIndex.field_index`: field name → bucket dict. -/
abbrev FieldIndex := List (String × Bucket)

/-- The `stats` dict of `MetadataIndex`. -/
structure Stats where
  total_nodes : Nat
  indexed_fields : Finset String
  last_updated : Option String
deriving DecidableEq

/-- In-memory state of `MetadataIndex` (the persist path is not part of the
observable state). -/
structure MetadataIndex where
  field_index : FieldIndex
  node_metadata : List (NodeId × Metadata)
  stats : Stats
deriving DecidableEq

/-- The state `MetadataIndex.__init__` builds before `_load` runs. -/
def emptyIndex : MetadataIndex :=
  { field_index := []
    node_metadata := []
    stats := { total_nodes := 0, indexed_fields := ∅, last_updated := none } }

/-- The slice of a llama-index node that `index_nodes` reads. -/
structure PyNode where
  node_id : NodeId
  metadata : Metadata

/-- `self.field_index[field][value]` with the guards the code performs around
every read: the empty set when the field is unindexed or the value absent. -/
def bucketGet (fi : FieldIndex) (field : String) (v : Value) : Finset NodeId :=
  match alookup field fi with
  | none => ∅
  | some b => (alookup v b).getD ∅

/-- `self.field_index[field][normalized_value].add(node_id)`: both defaultdict
levels create their entry (at the end of the dict) when missing. -/
def bucketAdd (fi : FieldIndex) (field : String) (nv : Value) (id : NodeId) : FieldIndex :=
  let b := (alookup field fi).getD []
  aset field (aset nv (insert id ((alookup nv b).getD ∅)) b) fi

/-- Body of the `for field in fields` loop of `index_nodes` for one field:
if the field is present in the node's metadata, normalize its value, add the
node id to the bucket and record the field in `stats['indexed_fields']`. -/
def indexField (node_id : NodeId) (md : Metadata) (idx : MetadataIndex) (field : String) :
    MetadataIndex :=
  match alookup field md with
  | none => idx
  | some value =>
      let nv := normalizeValue value
      { idx with
          field_index := bucketAdd idx.field_index field nv node_id
          stats := { idx.stats with
                       indexed_fields := insert field idx.stats.indexed_fields } }

/-- Body of the `for node in nodes` loop of `index_nodes`: store the node's
full metadata in the side table, then index each selected field.
`fields = fields_to_index or metadata.keys()` uses Python truthiness: both
`None` and an empty list fall back to all metadata keys. -/
def indexOneNode (fieldsToIndex : Option (List String)) (idx : MetadataIndex)
    (node : PyNode) : MetadataIndex :=
  let idx1 := { idx with node_metadata := aset node.node_id node.metadata idx.node_metadata }
  let fields :=
    match fieldsToIndex with
    | none => node.metadata.map Prod.fst
    | some [] => node.metadata.map Prod.fst
    | some fs => fs
  fields.foldl (indexField node.node_id node.metadata) idx1

/-- `MetadataIndex.index_nodes`; `now` is the `datetime.now().isoformat()`
reading taken when the stats are refreshed. An empty node list returns
immediately without touching the stats. -/
def index_nodes (idx : MetadataIndex) (nodes : List PyNode)
    (fieldsToIndex : Option (List String)) (now : String) : MetadataIndex :=
  if nodes.isEmpty then idx
  else
    let idx' := nodes.foldl (indexOneNode fieldsToIndex) idx
    { idx' with
        stats := { idx'.stats with
                     total_nodes := idx'.node_metadata.length
                     last_updated := some now } }

/-- `MetadataIndex.search`. The code returns `list(result)`; the element order
of that list is Python set iteration order, which nothing in the spec or the
claims depends on, so the result is modelled as the set itself. -/
def search (idx : MetadataIndex) (filters : List (String × Value)) (matchAll : Bool) :
    Finset NodeId :=
  if filters = [] then (idx.node_metadata.map Prod.fst).toFinset
  else
    let result_sets :=
      filters.map fun fv => bucketGet idx.field_index fv.1 (normalizeValue fv.2)
    if matchAll then result_sets.tail.foldl (· ∩ ·) (result_sets.headD ∅)
    else result_sets.foldl (· ∪ ·) ∅

/-- `MetadataIndex.get_node_metadata`. -/
def get_node_metadata (idx : MetadataIndex) (node_id : NodeId) : Option Metadata :=
  alookup node_id idx.node_metadata

/-- One iteration of the `for field, value in metadata.items()` loop of
`delete_node`: when the field is indexed and the normalized value has a
bucket, discard the node id from that bucket. -/
def deleteFromBucket (node_id : NodeId) (fi : FieldIndex) (fv : String × Value) :
    FieldIndex :=
  match alookup fv.1 fi with
  | none => fi
  | some b =>
      match alookup (normalizeValue fv.2) b with
      | none => fi
      | some s => aset fv.1 (aset (normalizeValue fv.2) (s.erase node_id) b) fi

/-- `MetadataIndex.delete_node`: a missing id is a no-op; otherwise the id is
discarded from the bucket of every field/value pair of its stored metadata,
its side-table entry is removed, and the stats are refreshed. -/
def delete_node (idx : MetadataIndex) (node_id : NodeId) (now : String) : MetadataIndex :=
  match alookup node_id idx.node_metadata with
  | none => idx
  | some metadata =>
      let fi := metadata.foldl (deleteFromBucket node_id) idx.field_index
      let nm := adel node_id idx.node_metadata
      { field_index := fi
        node_metadata := nm
        stats := { idx.stats with total_nodes := nm.length, last_updated := some now } }

/-- `MetadataIndex.clear`. -/
def clearIndex (_idx : MetadataIndex) (now : String) : MetadataIndex :=
  { field_index := []
    node_metadata := []
    stats := { total_nodes := 0, indexed_fields := ∅, last_updated := some now } }

/-- The dict comprehension `{str(value): list(node_ids) for value, node_ids in
values.items()}` of `MetadataIndex.persist` for one field's bucket dict: every
key is stringified, and a later duplicate of a stringified key overwrites an
earlier one exactly as in a Python dict build. -/
def serializeBucket (b : Bucket) : Bucket :=
  b.foldl (fun acc vs => aset (Value.prim (.str (pyStrOfKey vs.1))) vs.2 acc) []

/-- The pure content transformation of `MetadataIndex.persist()` followed by
`_load()` into a fresh instance, assuming every file write and read succeeds:
`node_metadata` and `stats` survive the JSON round trip unchanged
(`indexed_fields` goes through a list and back to a set), while every bucket
key of `field_index` comes back as the JSON string `str(value)` because
`_load` performs no inverse conversion on the keys. -/
def persistRoundTrip (idx : MetadataIndex) : MetadataIndex :=
  { idx with field_index := idx.field_index.map fun fb => (fb.1, serializeBucket fb.2) }

/-- `try: body / except Exception: logger(...)`: the exception is logged and
swallowed, the caller always gets a normal return. -/
def tryExceptLog (body : Except String Unit) : Except String Unit :=
  match body with
  | .ok _ => .ok ()
  | .error _ => .ok ()

/-- The three sequential snapshot writes in the body of
`MetadataIndex.persist`: the field index, the node metadata, the stats. -/
def persistWrites (w1 w2 w3 : Except String Unit) : Except String Unit := do
  w1
  w2
  w3

/-- `MetadataIndex.persist` as seen by its caller, given the outcome of each
of its three file writes: the whole body runs inside `try/except`. -/
def metadataIndexPersist (w1 w2 w3 : Except String Unit) : Except String Unit :=
  tryExceptLog (persistWrites w1 w2 w3)

/-- `DocumentStoreManager.persist` (simple backend) as seen by its caller,
given the outcomes of the docstore snapshot write and the metadata-index
write: the whole body runs inside `try/except`. -/
def docstoreManagerPersist (w1 w2 : Except String Unit) : Except String Unit :=
  tryExceptLog (do
    w1
    w2)

/-- On-disk state of one snapshot file: absent, present but failing to parse
(`json.load` raises), or present with parsed content. -/
inductive FileState (α : Type) where
  | missing : FileState α
  | malformed : FileState α
  | good : α → FileState α

/-- The body of `MetadataIndex._load` up to its first exception: each of the
three files, if present, is parsed and assigned in order; a parse failure
raises, aborting the body but keeping every assignment already made
(`throw` carries the partially updated state). -/
def loadBody (f1 : FileState FieldIndex) (f2 : FileState (List (NodeId × Metadata)))
    (f3 : FileState Stats) (idx : MetadataIndex) : Except MetadataIndex MetadataIndex := do
  let idx ←
    match f1 with
    | .missing => pure idx
    | .malformed => throw idx
    | .good fi => pure { idx with field_index := fi }
  let idx ←
    match f2 with
    | .missing => pure idx
    | .malformed => throw idx
    | .good nm => pure { idx with node_metadata := nm }
  match f3 with
  | .missing => pure idx
  | .malformed => throw idx
  | .good st => pure { idx with stats := st }

/-- `MetadataIndex._load`: the surrounding `try/except` logs the exception and
keeps whatever state the body had built so far; the caller never sees an
exception. -/
def metadataIndexLoad (f1 : FileState FieldIndex)
    (f2 : FileState (List (NodeId × Metadata))) (f3 : FileState Stats)
    (idx : MetadataIndex) : MetadataIndex :=
  match loadBody f1 f2 f3 idx with
  | .ok idx' => idx'
  | .error idx' => idx'

/-- The slice of a llama-index `Document` that `add_documents` reads. -/
structure PyDoc where
  doc_id : String
  text : String
  metadata : Metadata
deriving DecidableEq

/-- A record stored in the document store. -/
structure StoredDoc where
  text : String
  metadata : Metadata
deriving DecidableEq

/-- In-memory state of `DocumentStoreManager` (`simple` backend): the wrapped
docstore mapping, the mirror `metadata_index` dict, and a clock whose value is
the next `datetime.now()` reading (readings are modelled as strictly
increasing integers; the claims compare them only for equality and order). -/
structure DocStore where
  docs : List (String × StoredDoc)
  metadata_index : List (String × Metadata)
  clock : Nat
deriving DecidableEq

/-- A freshly initialized manager over an empty directory. -/
def emptyDocStore : DocStore := { docs := [], metadata_index := [], clock := 0 }

/-- The `results` counters of `add_documents`. The `errors` list is omitted:
nothing in the embedded fragment can raise per record. -/
structure AddResults where
  added : Nat
  updated : Nat
  skipped : Nat
deriving DecidableEq

/-- The metadata value written for a timestamp taken at clock tick `t`. -/
def timeValue (t : Nat) : Value := .prim (.int t)

/-- Loop body of `DocumentStoreManager.add_documents` for one document:
look up the id; skip when present and `update_existing` is false; otherwise
stamp `stored_at` with `now()`, additionally stamp `updated_at` with a second
`now()` when the id was present, store the document under its id, mirror its
metadata in `metadata_index`, and count it as added or updated. -/
def addOneDoc (updateExisting : Bool) (st : DocStore × AddResults) (doc : PyDoc) :
    DocStore × AddResults :=
  let store := st.1
  let res := st.2
  let existing := (alookup doc.doc_id store.docs).isSome
  if existing ∧ ¬updateExisting then
    (store, { res with skipped := res.skipped + 1 })
  else
    let md1 := aset "stored_at" (timeValue store.clock) doc.metadata
    let clock1 := store.clock + 1
    let stamped :=
      if existing then (aset "updated_at" (timeValue clock1) md1, clock1 + 1)
      else (md1, clock1)
    let store' : DocStore :=
      { docs := aset doc.doc_id { text := doc.text, metadata := stamped.1 } store.docs
        metadata_index := aset doc.doc_id stamped.1 store.metadata_index
        clock := stamped.2 }
    if existing then (store', { res with updated := res.updated + 1 })
    else (store', { res with added := res.added + 1 })

/-- `DocumentStoreManager.add_documents`. The trailing `self.persist()` of the
source does not change the in-memory state. -/
def add_documents (store : DocStore) (docs : List PyDoc) (updateExisting : Bool) :
    DocStore × AddResults :=
  docs.foldl (addOneDoc updateExisting) (store, { added := 0, updated := 0, skipped := 0 })

/-- `hybrid_search` (metadata_index.py): with empty filters the candidate list
is returned unchanged; otherwise the candidates are filtered by membership in
`metadata_index.search(metadata_filters, match_all=True)`. The `rerank`
parameter is accepted and never read by the code. -/
def hybrid_search (vector_results : List NodeId) (metadata_index : MetadataIndex)
    (metadata_filters : List (String × Value)) (rerank : Bool) : List NodeId :=
  if metadata_filters.isEmpty then vector_results
  else
    let metadata_results := search metadata_index metadata_filters true
    vector_results.filter fun node_id => decide (node_id ∈ metadata_results)

theorem lowerChar_idem (c : Nat) : lowerChar (lowerChar c) = lowerChar c := by
  unfold lowerChar
  split
  · split <;> omega
  · rfl

theorem pyStrip_sublist (s : PyStr) : List.Sublist (pyStrip s) s := by
  unfold pyStrip
  exact List.Sublist.trans
    (List.rdropWhile_prefix isSpaceChar (s.dropWhile isSpaceChar)).sublist
    (List.dropWhile_sublist isSpaceChar)

theorem list_map_fix {α : Type} {f : α → α} {l : List α} (h : ∀ c ∈ l, f c = c) :
    l.map f = l := by
  induction l with
  | nil => rfl
  | cons a t ih =>
      rw [List.map_cons, h a (by simp), ih fun c hc => h c (by simp [hc])]

theorem dropWhile_eq_self_of_IsPrefix {p : Nat → Bool} {l m : List Nat}
    (hpre : l <+: m) (hm : m.dropWhile p = m) : l.dropWhile p = l := by
  obtain ⟨t, rfl⟩ := hpre
  cases l with
  | nil => rfl
  | cons a l' =>
    have ha : p a = false := by
      by_contra hp
      simp only [Bool.not_eq_false] at hp
      rw [List.cons_append, List.dropWhile_cons, if_pos hp] at hm
      have hle := (List.dropWhile_sublist (l := l' ++ t) p).length_le
      rw [hm] at hle
      simp [List.length_cons] at hle
    rw [List.dropWhile_cons, ha]
    simp

theorem pyStrip_idem (s : PyStr) : pyStrip (pyStrip s) = pyStrip s := by
  unfold pyStrip
  have h1 : (s.dropWhile isSpaceChar).dropWhile isSpaceChar = s.dropWhile isSpaceChar :=
    List.dropWhile_idempotent _ _
  have hpre : (s.dropWhile isSpaceChar).rdropWhile isSpaceChar <+: s.dropWhile isSpaceChar :=
    List.rdropWhile_prefix _ _
  rw [dropWhile_eq_self_of_IsPrefix hpre h1, List.rdropWhile_idempotent]

theorem pyLower_pyStrip_pyLower (s : PyStr) :
    pyLower (pyStrip (pyLower s)) = pyStrip (pyLower s) := by
  apply list_map_fix
  intro c hc
  have hmem : c ∈ pyLower s := (pyStrip_sublist (pyLower s)).subset hc
  obtain ⟨x, _, rfl⟩ := List.mem_map.1 hmem
  exact lowerChar_idem x

theorem normalizeValue_idem (v : Value) :
    normalizeValue (normalizeValue v) = normalizeValue v := by
  match v with
  | .prim (.str s) =>
      simp only [normalizeValue]
      rw [pyLower_pyStrip_pyLower, pyStrip_idem]
  | .prim (.int _) => rfl
  | .prim (.bool _) => rfl
  | .list vs =>
      simp only [normalizeValue, List.map_map]
      have hid : (pyStrOfPrim ∘ Prim.str) = id := rfl
      rw [hid, List.map_id]
      have hs : sortedPyStrs (sortedPyStrs (vs.map pyStrOfPrim)) =
          sortedPyStrs (vs.map pyStrOfPrim) :=
        List.Sorted.insertionSort_eq (List.sorted_insertionSort _ _)
      rw [hs]

theorem alookup_aset_self {α β : Type} [DecidableEq α] (k : α) (v : β) (l : List (α × β)) :
    alookup k (aset k v l) = some v := by
  induction l with
  | nil => simp [aset, alookup]
  | cons p t ih =>
      obtain ⟨k', v'⟩ := p
      by_cases h : k' = k
      · simp [aset, alookup, h]
      · simp [aset, alookup, h, ih]

theorem alookup_aset_ne {α β : Type} [DecidableEq α] {k k' : α} (h : k' ≠ k) (v : β)
    (l : List (α × β)) : alookup k (aset k' v l) = alookup k l := by
  induction l with
  | nil => simp [aset, alookup, h]
  | cons p t ih =>
      obtain ⟨k'', v''⟩ := p
      by_cases h2 : k'' = k'
      · subst h2
        simp [aset, alookup, h]
      · by_cases h3 : k'' = k
        · subst h3
          simp [aset, alookup, h2]
        · simp [aset, alookup, h2, h3, ih]

theorem alookup_mem {α β : Type} [DecidableEq α] {k : α} {v : β} {l : List (α × β)}
    (h : alookup k l = some v) : (k, v) ∈ l := by
  induction l with
  | nil => simp [alookup] at h
  | cons p t ih =>
      obtain ⟨k', v'⟩ := p
      by_cases h2 : k' = k
      · subst h2
        have hv : v' = v := by simpa [alookup] using h
        subst hv
        exact List.mem_cons_self _ _
      · simp only [alookup, if_neg h2] at h
        exact List.mem_cons_of_mem _ (ih h)

theorem not_mem_keys_adel {α β : Type} [DecidableEq α] (k : α) (l : List (α × β)) :
    k ∉ (adel k l).map Prod.fst := by
  intro hmem
  obtain ⟨p, hp, hfst⟩ := List.mem_map.1 hmem
  have := List.of_mem_filter hp
  simp only [decide_eq_true_eq] at this
  exact this hfst

theorem alookup_adel_self {α β : Type} [DecidableEq α] (k : α) (l : List (α × β)) :
    alookup k (adel k l) = none := by
  cases h : alookup k (adel k l) with
  | none => rfl
  | some v =>
      have hmem := alookup_mem h
      exact absurd (List.mem_map_of_mem Prod.fst hmem) (not_mem_keys_adel k l)

theorem mem_bucketGet_iff {fi : FieldIndex} {f : String} {v : Value} {id : NodeId} :
    id ∈ bucketGet fi f v ↔
      ∃ b, alookup f fi = some b ∧ ∃ s, alookup v b = some s ∧ id ∈ s := by
  unfold bucketGet
  cases hf : alookup f fi with
  | none => simp
  | some b =>
      cases hv : alookup v b with
      | none => simp [hv]
      | some s => simp [hv]

theorem mem_foldl_inter (id : NodeId) (l : List (Finset NodeId)) (a : Finset NodeId) :
    id ∈ l.foldl (· ∩ ·) a ↔ id ∈ a ∧ ∀ s ∈ l, id ∈ s := by
  induction l generalizing a with
  | nil => simp
  | cons s t ih =>
      simp only [List.foldl_cons, ih, Finset.mem_inter, List.mem_cons]
      constructor
      · rintro ⟨⟨ha, hs⟩, hall⟩
        exact ⟨ha, fun x hx => by rcases hx with rfl | hx; exact hs; exact hall x hx⟩
      · rintro ⟨ha, hall⟩
        exact ⟨⟨ha, hall s (Or.inl rfl)⟩, fun x hx => hall x (Or.inr hx)⟩

theorem mem_foldl_union (id : NodeId) (l : List (Finset NodeId)) (a : Finset NodeId) :
    id ∈ l.foldl (· ∪ ·) a ↔ id ∈ a ∨ ∃ s ∈ l, id ∈ s := by
  induction l generalizing a with
  | nil => simp
  | cons s t ih =>
      simp only [List.foldl_cons, ih, Finset.mem_union, List.mem_cons]
      constructor
      · rintro (⟨ha | hs⟩ | ⟨x, hx, hid⟩)
        · exact Or.inl ha
        · exact Or.inr ⟨s, Or.inl rfl, hs⟩
        · exact Or.inr ⟨x, Or.inr hx, hid⟩
      · rintro (ha | ⟨x, rfl | hx, hid⟩)
        · exact Or.inl (Or.inl ha)
        · exact Or.inl (Or.inr hid)
        · exact Or.inr ⟨x, hx, hid⟩

theorem mem_search_true {idx : MetadataIndex} {filters : List (String × Value)}
    (hne : filters ≠ []) (id : NodeId) :
    id ∈ search idx filters true ↔
      ∀ p ∈ filters, id ∈ bucketGet idx.field_index p.1 (normalizeValue p.2) := by
  obtain ⟨p0, rest, rfl⟩ : ∃ p0 rest, filters = p0 :: rest := by
    cases filters with
    | nil => exact absurd rfl hne
    | cons a t => exact ⟨a, t, rfl⟩
  have hunf : search idx (p0 :: rest) true =
      (rest.map fun fv => bucketGet idx.field_index fv.1 (normalizeValue fv.2)).foldl
        (· ∩ ·) (bucketGet idx.field_index p0.1 (normalizeValue p0.2)) := by
    simp [search]
  rw [hunf, mem_foldl_inter]
  constructor
  · rintro ⟨h0, hrest⟩ p hp
    rcases List.mem_cons.1 hp with rfl | hp'
    · exact h0
    · exact hrest _ (List.mem_map_of_mem _ hp')
  · intro hall
    refine ⟨hall p0 (List.mem_cons_self _ _), ?_⟩
    intro s hs
    obtain ⟨p, hp, rfl⟩ := List.mem_map.1 hs
    exact hall p (List.mem_cons_of_mem _ hp)

theorem mem_search_false {idx : MetadataIndex} {filters : List (String × Value)}
    (hne : filters ≠ []) (id : NodeId) :
    id ∈ search idx filters false ↔
      ∃ p ∈ filters, id ∈ bucketGet idx.field_index p.1 (normalizeValue p.2) := by
  obtain ⟨p0, rest, rfl⟩ : ∃ p0 rest, filters = p0 :: rest := by
    cases filters with
    | nil => exact absurd rfl hne
    | cons a t => exact ⟨a, t, rfl⟩
  have hunf : search idx (p0 :: rest) false =
      ((p0 :: rest).map fun fv => bucketGet idx.field_index fv.1 (normalizeValue fv.2)).foldl
        (· ∪ ·) ∅ := by
    simp [search]
  rw [hunf, mem_foldl_union]
  simp only [Finset.not_mem_empty, false_or]
  constructor
  · rintro ⟨s, hs, hid⟩
    obtain ⟨p, hp, rfl⟩ := List.mem_map.1 hs
    exact ⟨p, hp, hid⟩
  · rintro ⟨p, hp, hid⟩
    exact ⟨_, List.mem_map_of_mem _ hp, hid⟩

theorem search_nil (idx : MetadataIndex) (matchAll : Bool) :
    search idx [] matchAll = (idx.node_metadata.map Prod.fst).toFinset := by
  simp [search]

theorem not_mem_keys_of_alookup_none {α β : Type} [DecidableEq α] {k : α}
    {l : List (α × β)} (h : alookup k l = none) : k ∉ l.map Prod.fst := by
  induction l with
  | nil => simp
  | cons p t ih =>
      obtain ⟨k', v'⟩ := p
      by_cases h2 : k' = k
      · subst h2
        simp [alookup] at h
      · simp only [alookup, if_neg h2] at h
        simp only [List.map_cons, List.mem_cons]
        rintro (rfl | hmem)
        · exact h2 rfl
        · exact ih h hmem

theorem bucketGet_aset_self (fi : FieldIndex) (f : String) (B : Bucket) (v : Value) :
    bucketGet (aset f B fi) f v = (alookup v B).getD ∅ := by
  unfold bucketGet
  simp [alookup_aset_self]

theorem bucketGet_aset_ne {f' f : String} (h : f' ≠ f) (B : Bucket) (fi : FieldIndex)
    (v : Value) : bucketGet (aset f' B fi) f v = bucketGet fi f v := by
  unfold bucketGet
  rw [alookup_aset_ne h]

theorem mem_bucketGet_of_deleteFromBucket {id : NodeId} {fi : FieldIndex}
    {q : String × Value} {f : String} {v : Value}
    (h : id ∈ bucketGet (deleteFromBucket id fi q) f v) : id ∈ bucketGet fi f v := by
  cases hq : alookup q.1 fi with
  | none =>
      simp only [deleteFromBucket, hq] at h
      exact h
  | some b =>
      cases hv : alookup (normalizeValue q.2) b with
      | none =>
          simp only [deleteFromBucket, hq, hv] at h
          exact h
      | some s =>
          simp only [deleteFromBucket, hq, hv] at h
          by_cases hf : f = q.1
          · subst hf
            rw [bucketGet_aset_self] at h
            by_cases hvv : v = normalizeValue q.2
            · subst hvv
              rw [alookup_aset_self] at h
              simp only [Option.getD_some] at h
              exact absurd h (Finset.not_mem_erase id s)
            · rw [alookup_aset_ne (fun he => hvv he.symm)] at h
              simp only [bucketGet, hq]
              exact h
          · rw [bucketGet_aset_ne (fun he => hf he.symm)] at h
            exact h

theorem not_mem_bucketGet_deleteFromBucket_self {id : NodeId} {fi : FieldIndex}
    (q : String × Value) :
    id ∉ bucketGet (deleteFromBucket id fi q) q.1 (normalizeValue q.2) := by
  cases hq : alookup q.1 fi with
  | none =>
      simp only [deleteFromBucket, hq]
      simp [bucketGet, hq]
  | some b =>
      cases hv : alookup (normalizeValue q.2) b with
      | none =>
          simp only [deleteFromBucket, hq, hv]
          simp [bucketGet, hq, hv]
      | some s =>
          simp only [deleteFromBucket, hq, hv]
          rw [bucketGet_aset_self, alookup_aset_self]
          simp [Finset.not_mem_erase]

theorem foldl_deleteFromBucket_absent {id : NodeId} (md : Metadata) :
    ∀ fi : FieldIndex,
      (∀ f v, id ∈ bucketGet fi f v → ∃ p ∈ md, p.1 = f ∧ normalizeValue p.2 = v) →
      ∀ f v, id ∉ bucketGet (md.foldl (deleteFromBucket id) fi) f v := by
  induction md with
  | nil =>
      intro fi hcov f v hmem
      simp only [List.foldl_nil] at hmem
      obtain ⟨p, hp, _⟩ := hcov f v hmem
      exact absurd hp (List.not_mem_nil p)
  | cons q md' ih =>
      intro fi hcov f v
      simp only [List.foldl_cons]
      apply ih
      intro f' v' hmem'
      have hbase := mem_bucketGet_of_deleteFromBucket hmem'
      obtain ⟨p, hp, hpf, hpv⟩ := hcov f' v' hbase
      rcases List.mem_cons.1 hp with rfl | hp'
      · rw [← hpf, ← hpv] at hmem'
        exact absurd hmem' (not_mem_bucketGet_deleteFromBucket_self p)
      · exact ⟨p, hp', hpf, hpv⟩

/-- The converse half of the index invariant, for one id: every bucket
membership of `id` in the inverted index is justified by a field/value pair of
the id's current side-table metadata. Indexing a fresh id preserves this;
re-indexing an id whose metadata changed breaks it (the stale-bucket behavior
the spec flags as a correctness risk). -/
def nodeOnlyIn (idx : MetadataIndex) (id : NodeId) : Prop :=
  ∀ fb ∈ idx.field_index, ∀ vs ∈ fb.2, id ∈ vs.2 →
    ∃ p ∈ (alookup id idx.node_metadata).getD [], p.1 = fb.1 ∧ normalizeValue p.2 = vs.1

instance (idx : MetadataIndex) (id : NodeId) : Decidable (nodeOnlyIn idx id) := by
  unfold nodeOnlyIn
  infer_instance

theorem justified_of_nodeOnlyIn {idx : MetadataIndex} {id : NodeId}
    (hinv : nodeOnlyIn idx id) {f : String} {v : Value}
    (hmem : id ∈ bucketGet idx.field_index f v) :
    ∃ p ∈ (alookup id idx.node_metadata).getD [], p.1 = f ∧ normalizeValue p.2 = v := by
  obtain ⟨b, hb, s, hs, hid⟩ := mem_bucketGet_iff.1 hmem
  exact hinv (f, b) (alookup_mem hb) (v, s) (alookup_mem hs) hid

theorem count_filter_of_pos {α : Type} [DecidableEq α] {p : α → Bool} {a : α}
    (hp : p a = true) (l : List α) : (l.filter p).count a = l.count a := by
  induction l with
  | nil => rfl
  | cons x t ih =>
      by_cases hx : p x = true
      · rw [List.filter_cons_of_pos hx]
        simp [List.count_cons, ih]
      · rw [List.filter_cons_of_neg (by simpa using hx)]
        have hxa : a ≠ x := fun h => hx (h ▸ hp)
        simp [List.count_cons, hxa, ih]

theorem count_filter_of_neg {α : Type} [DecidableEq α] {p : α → Bool} {a : α}
    (hp : p a = false) (l : List α) : (l.filter p).count a = 0 := by
  rw [List.count_eq_zero]
  intro hmem
  have hpa := List.of_mem_filter hmem
  rw [hp] at hpa
  exact Bool.noConfusion hpa

/-- One node with a numeric metadata value, freshly indexed. -/
def c1Index : MetadataIndex :=
  index_nodes emptyIndex [⟨"n1", [("year", .prim (.int 2020))]⟩] none "t0"

/-- C1: the persist/load round trip is not observably equivalent to the
pre-persist state for non-string filter values. Before the round trip,
`search({year: 2020}, match_all=True)` finds the node; `persist` writes the
bucket key through `str(value)` and `_load` keeps the resulting JSON string
key, so the same search after the round trip finds nothing, even though the
side table (and hence `get_node_metadata`) survives unchanged. -/
theorem persist_load_breaks_numeric_buckets :
    search c1Index [("year", .prim (.int 2020))] true = {"n1"} ∧
    (persistRoundTrip c1Index).node_metadata = c1Index.node_metadata ∧
    (persistRoundTrip c1Index).stats = c1Index.stats ∧
    search (persistRoundTrip c1Index) [("year", .prim (.int 2020))] true = ∅ := by
  decide

/-- The same id indexed twice, with its only metadata value changed from
`"alpha"` to `"beta"` by the second `index_nodes` call. -/
def c2Index : MetadataIndex :=
  index_nodes
    (index_nodes emptyIndex [⟨"n1", [("dept", .prim (.str (pystr "alpha")))]⟩] none "t0")
    [⟨"n1", [("dept", .prim (.str (pystr "beta")))]⟩] none "t1"

/-- C2: overwriting an id's metadata via a second `index_nodes` call does not
remove the id's stale bucket memberships. After re-indexing `n1` with
`dept: "beta"`, the stored metadata is the new map, yet `n1` still sits in the
bucket for the old value `"alpha"`, and a search for the old value still
returns it — the stated invariant fails after this mutating call. -/
theorem reindex_keeps_stale_bucket :
    get_node_metadata c2Index "n1" = some [("dept", .prim (.str (pystr "beta")))] ∧
    "n1" ∈ bucketGet c2Index.field_index "dept"
      (normalizeValue (.prim (.str (pystr "alpha")))) ∧
    "n1" ∈ search c2Index [("dept", .prim (.str (pystr "alpha")))] true := by
  decide

/-- C3: `hybrid_search` with empty filters returns the ranked candidates
unchanged; with non-empty filters it returns exactly the subsequence of the
candidates that lie in `search(filters, match_all=True)`: the result is a
sublist of the input (order preserved, nothing inserted), its members are
precisely the candidates allowed by the metadata filter, and each allowed
candidate keeps its exact multiplicity. Mutation cannot arise: the embedding
is a pure function of the candidate list and the index. -/
theorem hybrid_search_ordered_subsequence (v : List NodeId) (idx : MetadataIndex)
    (filters : List (String × Value)) (rerank : Bool) :
    (filters = [] → hybrid_search v idx filters rerank = v) ∧
    (filters ≠ [] →
      List.Sublist (hybrid_search v idx filters rerank) v ∧
      (∀ id, id ∈ hybrid_search v idx filters rerank ↔
        id ∈ v ∧ id ∈ search idx filters true) ∧
      (∀ id, (hybrid_search v idx filters rerank).count id =
        if id ∈ search idx filters true then v.count id else 0)) := by
  constructor
  · intro h
    subst h
    rfl
  · intro hne
    have hFalse : filters.isEmpty = false := by
      cases filters with
      | nil => exact absurd rfl hne
      | cons a t => rfl
    have hunf : hybrid_search v idx filters rerank =
        v.filter fun id => decide (id ∈ search idx filters true) := by
      unfold hybrid_search
      simp only [hFalse, Bool.false_eq_true, if_false]
    rw [hunf]
    refine ⟨List.filter_sublist _, ?_, ?_⟩
    · intro id
      simp [List.mem_filter]
    · intro id
      by_cases hid : id ∈ search idx filters true
      · rw [if_pos hid]
        exact count_filter_of_pos (by simpa using hid) v
      · rw [if_neg hid]
        exact count_filter_of_neg (by simpa using hid) v

/-- Two candidates `c1`, `c3` carry the filter value; `c2`, `c4` do not. -/
def c3Index : MetadataIndex :=
  index_nodes emptyIndex
    [⟨"c1", [("team", .prim (.str (pystr "x")))]⟩,
     ⟨"c3", [("team", .prim (.str (pystr "x")))]⟩] none "t0"

/-- C3 witness at the spec's concrete scenario: for candidates
`[c1, c2, c3, c4]` and a filter matching only `{c1, c3}`, the hybrid result is
a sublist of the candidates and equals `[c1, c3]` in that order. -/
theorem hybrid_search_ordered_subsequence_witness :
    List.Sublist
      (hybrid_search ["c1", "c2", "c3", "c4"] c3Index
        [("team", .prim (.str (pystr "x")))] true)
      ["c1", "c2", "c3", "c4"] ∧
    hybrid_search ["c1", "c2", "c3", "c4"] c3Index
        [("team", .prim (.str (pystr "x")))] true = ["c1", "c3"] :=
  ⟨((hybrid_search_ordered_subsequence ["c1", "c2", "c3", "c4"] c3Index
      [("team", .prim (.str (pystr "x")))] true).2 (by decide)).1,
   by decide⟩

/-- C4: for non-empty filters, `search(filters, match_all=True)` is exactly
the intersection of the per-filter bucket sets
`field_index[f][normalize(v)]` (empty set for an unindexed field or absent
value), `search(filters, match_all=False)` exactly their union, and empty
filters return every key of the side table. -/
theorem search_and_or_semantics (idx : MetadataIndex) (filters : List (String × Value))
    (matchAll : Bool) :
    (filters ≠ [] →
      (∀ id, id ∈ search idx filters true ↔
        ∀ p ∈ filters, id ∈ bucketGet idx.field_index p.1 (normalizeValue p.2)) ∧
      (∀ id, id ∈ search idx filters false ↔
        ∃ p ∈ filters, id ∈ bucketGet idx.field_index p.1 (normalizeValue p.2))) ∧
    search idx [] matchAll = (idx.node_metadata.map Prod.fst).toFinset :=
  ⟨fun hne => ⟨fun id => mem_search_true hne id, fun id => mem_search_false hne id⟩,
   search_nil idx matchAll⟩

/-- Two nodes: `n1` matches both filters `a: x` and `b: y`; `n2` only `a: x`. -/
def c4Index : MetadataIndex :=
  index_nodes emptyIndex
    [⟨"n1", [("a", .prim (.str (pystr "x"))), ("b", .prim (.str (pystr "y")))]⟩,
     ⟨"n2", [("a", .prim (.str (pystr "x")))]⟩] none "t0"

/-- C4 witness: the AND semantics applied at a concrete two-filter query
(`n1` lies in both buckets, so the intersection contains it). -/
theorem search_and_or_semantics_witness :
    "n1" ∈ search c4Index
      [("a", .prim (.str (pystr "x"))), ("b", .prim (.str (pystr "y")))] true :=
  (((search_and_or_semantics c4Index
        [("a", .prim (.str (pystr "x"))), ("b", .prim (.str (pystr "y")))] true).1
      (by decide)).1 "n1").mpr (by decide)

/-- A document added twice with `update_existing=True`. -/
def c5Doc : PyDoc := ⟨"d1", "hello", [("dept", .prim (.str (pystr "x")))]⟩

/-- Store after the first add of `c5Doc` (first insert at tick 0). -/
def c5Store1 : DocStore := (add_documents emptyDocStore [c5Doc] true).1

/-- Store after adding `c5Doc` again with `update_existing=True`. -/
def c5Store2 : DocStore := (add_documents c5Store1 [c5Doc] true).1

/-- C5: `stored_at` is not stable across updates. The first insert stamps
`stored_at` with tick 0; re-adding the same id with `update_existing=True`
re-stamps `stored_at` (tick 1) before stamping `updated_at` (tick 2), so the
stored record's `stored_at` changes on update, contrary to the claim. The
skip path of the claim does hold: `update_existing=False` leaves the store
unchanged and counts the record as skipped. -/
theorem stored_at_restamped_on_update :
    ((alookup "d1" c5Store1.docs).map fun d => alookup "stored_at" d.metadata) =
      some (some (timeValue 0)) ∧
    ((alookup "d1" c5Store2.docs).map fun d => alookup "stored_at" d.metadata) =
      some (some (timeValue 1)) ∧
    ((alookup "d1" c5Store2.docs).map fun d => alookup "updated_at" d.metadata) =
      some (some (timeValue 2)) ∧
    (add_documents c5Store1 [c5Doc] false).1 = c5Store1 ∧
    (add_documents c5Store1 [c5Doc] false).2.skipped = 1 := by
  decide

/-- An index state reached by re-indexing `n1` with changed metadata: `n1`
still sits in the bucket of the old value `"old"` while its stored metadata
holds only `"new"`. -/
def c6StaleIndex : MetadataIndex :=
  index_nodes
    (index_nodes emptyIndex [⟨"n1", [("dept", .prim (.str (pystr "old")))]⟩] none "t0")
    [⟨"n1", [("dept", .prim (.str (pystr "new")))]⟩] none "t1"

/-- C6 counterexample: in a reachable state with a stale bucket membership,
`delete_node` removes only the buckets of the *current* metadata, so a search
for the old value still returns the deleted id. -/
theorem delete_node_misses_stale_bucket :
    "n1" ∈ search (delete_node c6StaleIndex "n1" "t2")
      [("dept", .prim (.str (pystr "old")))] true := by
  decide

/-- C6 (amended with the justified-membership hypothesis): when every bucket
membership of `id` is justified by its stored metadata (`nodeOnlyIn`, which
holds unless the id was re-indexed with changed metadata), after
`delete_node(id)`: `get_node_metadata(id)` is `None`; no `search` call, over
any filters, empty or not, and either `match_all`, returns `id`; and the
bucket of every field/value pair of the id's previously stored metadata no
longer contains `id`. -/
theorem delete_node_removes_id (idx : MetadataIndex) (id : NodeId) (now : String)
    (hinv : nodeOnlyIn idx id) :
    get_node_metadata (delete_node idx id now) id = none ∧
    (∀ filters matchAll, id ∉ search (delete_node idx id now) filters matchAll) ∧
    (∀ md, get_node_metadata idx id = some md →
      ∀ p ∈ md,
        id ∉ bucketGet (delete_node idx id now).field_index p.1 (normalizeValue p.2)) := by
  cases hm : alookup id idx.node_metadata with
  | none =>
      have hdel : delete_node idx id now = idx := by
        simp only [delete_node, hm]
      have habs : ∀ f v, id ∉ bucketGet idx.field_index f v := by
        intro f v hmem
        obtain ⟨p, hp, _⟩ := justified_of_nodeOnlyIn hinv hmem
        rw [hm] at hp
        simp at hp
      rw [hdel]
      refine ⟨hm, ?_, ?_⟩
      · intro filters matchAll hmem
        by_cases hf : filters = []
        · subst hf
          rw [search_nil] at hmem
          exact not_mem_keys_of_alookup_none hm (List.mem_toFinset.1 hmem)
        · cases matchAll with
          | false =>
              obtain ⟨p, _, hmem'⟩ := (mem_search_false hf id).1 hmem
              exact habs _ _ hmem'
          | true =>
              obtain ⟨p0, rest, rfl⟩ : ∃ p0 rest, filters = p0 :: rest := by
                cases filters with
                | nil => exact absurd rfl hf
                | cons a t => exact ⟨a, t, rfl⟩
              exact habs _ _ ((mem_search_true hf id).1 hmem p0 (List.mem_cons_self _ _))
      · intro md _ p _
        exact habs _ _
  | some md0 =>
      have hfi : (delete_node idx id now).field_index =
          md0.foldl (deleteFromBucket id) idx.field_index := by
        simp only [delete_node, hm]
      have hnm : (delete_node idx id now).node_metadata = adel id idx.node_metadata := by
        simp only [delete_node, hm]
      have habs :
          ∀ f v, id ∉ bucketGet (md0.foldl (deleteFromBucket id) idx.field_index) f v := by
        apply foldl_deleteFromBucket_absent
        intro f v hmem
        obtain ⟨p, hp, hq⟩ := justified_of_nodeOnlyIn hinv hmem
        rw [hm] at hp
        simp only [Option.getD_some] at hp
        exact ⟨p, hp, hq⟩
      refine ⟨?_, ?_, ?_⟩
      · simp only [get_node_metadata, hnm]
        exact alookup_adel_self id idx.node_metadata
      · intro filters matchAll hmem
        by_cases hf : filters = []
        · subst hf
          rw [search_nil, hnm] at hmem
          exact not_mem_keys_adel id idx.node_metadata (List.mem_toFinset.1 hmem)
        · cases matchAll with
          | false =>
              obtain ⟨p, _, hmem'⟩ := (mem_search_false hf id).1 hmem
              rw [hfi] at hmem'
              exact habs _ _ hmem'
          | true =>
              obtain ⟨p0, rest, rfl⟩ : ∃ p0 rest, filters = p0 :: rest := by
                cases filters with
                | nil => exact absurd rfl hf
                | cons a t => exact ⟨a, t, rfl⟩
              have hmem' := (mem_search_true hf id).1 hmem p0 (List.mem_cons_self _ _)
              rw [hfi] at hmem'
              exact habs _ _ hmem'
      · intro md _ p _
        rw [hfi]
        exact habs _ _

/-- A one-node index built by fresh indexing; its bucket memberships are all
justified by the side table. -/
def c6Index : MetadataIndex :=
  index_nodes emptyIndex [⟨"n1", [("dept", .prim (.str (pystr "a")))]⟩] none "t0"

/-- C6 witness: the amended deletion theorem applied at a concrete one-node
index whose invariant holds by computation. -/
theorem delete_node_removes_id_witness :
    nodeOnlyIn c6Index "n1" ∧
    get_node_metadata (delete_node c6Index "n1" "t1") "n1" = none :=
  ⟨by decide, (delete_node_removes_id c6Index "n1" "t1" (by decide)).1⟩

/-- C7 counterexample: a failing field-index write inside
`MetadataIndex.persist` is caught by the surrounding `try/except`, logged, and
the call returns normally — the failure is not surfaced to the caller. -/
theorem persist_swallows_write_failure :
    metadataIndexPersist (.error "disk full") (.ok ()) (.ok ()) = .ok () := rfl

/-- C7 (amended): every I/O failure during persistence is caught inside
`persist()` and only logged; both `MetadataIndex.persist` and
`DocumentStoreManager.persist` return normally whatever their writes do, so
no error reaches the caller. -/
theorem persist_never_surfaces_errors (w1 w2 w3 v1 v2 : Except String Unit) :
    metadataIndexPersist w1 w2 w3 = .ok () ∧ docstoreManagerPersist v1 v2 = .ok () := by
  constructor
  · cases w1 <;> cases w2 <;> cases w3 <;> rfl
  · cases v1 <;> cases v2 <;> rfl

/-- A non-empty field index as loaded from a well-formed snapshot file. -/
def c8FieldIndex : FieldIndex := [("dept", [(.prim (.str (pystr "alpha")), {"n1"})])]

/-- C8 counterexample: a malformed node-metadata file following a good
field-index file does not reset the index to the empty state — the field
index loaded before the failure is kept, leaving a partially loaded state
rather than the all-empty one the claim requires. -/
theorem load_keeps_partially_loaded_state :
    (metadataIndexLoad (.good c8FieldIndex) .malformed .missing emptyIndex).field_index =
      c8FieldIndex ∧
    c8FieldIndex ≠ emptyIndex.field_index := by
  decide

/-- C8 (amended): `_load` never raises to the caller (the embedding is total
because the `except` clause swallows every exception); a missing file leaves
the corresponding part at its initial empty value; a malformed file stops the
load at that file, keeping the parts already loaded from earlier files and
leaving the remaining parts at their initial empty values, with the condition
logged. The three equations characterize the loaded state completely. -/
theorem load_stops_at_first_malformed_file (f1 : FileState FieldIndex)
    (f2 : FileState (List (NodeId × Metadata))) (f3 : FileState Stats) :
    (metadataIndexLoad f1 f2 f3 emptyIndex).field_index =
      (match f1 with
       | .good fi => fi
       | _ => emptyIndex.field_index) ∧
    (metadataIndexLoad f1 f2 f3 emptyIndex).node_metadata =
      (match f1, f2 with
       | .malformed, _ => emptyIndex.node_metadata
       | _, .good nm => nm
       | _, _ => emptyIndex.node_metadata) ∧
    (metadataIndexLoad f1 f2 f3 emptyIndex).stats =
      (match f1, f2, f3 with
       | .malformed, _, _ => emptyIndex.stats
       | _, .malformed, _ => emptyIndex.stats
       | _, _, .good st => st
       | _, _, _ => emptyIndex.stats) := by
  cases f1 <;> cases f2 <;> cases f3 <;> exact ⟨rfl, rfl, rfl⟩

/-- A record indexed under the already-normalized value `"finance"`. -/
def c9Index : MetadataIndex :=
  index_nodes emptyIndex [⟨"n1", [("department", .prim (.str (pystr "finance")))]⟩] none "t0"

/-- C9: the value normalizer is deterministic (it is a pure function of its
argument) and idempotent on every supported value shape, and it never raises
(the embedding is total); consequently indexing and lookup agree on bucket
identity: a search for `"  Finance "` — differing from the indexed
`"finance"` only in case and surrounding whitespace — finds the record. -/
theorem normalize_idempotent_and_lookup_consistent (v : Value) :
    normalizeValue (normalizeValue v) = normalizeValue v ∧
    "n1" ∈ search c9Index [("department", .prim (.str (pystr "  Finance ")))] true :=
  ⟨normalizeValue_idem v, by decide⟩

/-- C10: the output of `hybrid_search` does not depend on its `rerank`
argument — the flag is accepted and never read, so the call with
`rerank=True` returns the same list as the call with `rerank=False` on every
input. -/
theorem hybrid_search_ignores_rerank (vector_results : List NodeId)
    (metadata_index : MetadataIndex) (metadata_filters : List (String × Value)) :
    hybrid_search vector_results metadata_index metadata_filters true =
      hybrid_search vector_results metadata_index metadata_filters false := rfl
